import Mathlib

/-!
Verification of the hybrid Brownian-dynamics / Markov-state-model integrator
`MSMRDexitSampling` (file `MSMRD/integrators/MSMRDexitSampling.py`).

The integrator alternates between continuum Brownian motion in a disk and a
discrete Markov state model (MSM).  We embed its operations shallowly:

* planar positions are pairs of rationals; every comparison the source makes
  between a Euclidean norm and a nonnegative radius is embedded as the
  equivalent comparison of the squared norm with the squared radius, which
  keeps all definitions executable;
* the angular computations of `enterMSM` and `exitMSM` involve `arctan2`,
  `cos`, `sin` and π, so they are embedded over the reals;
* the external MSM collaborator (`propagate`, `allocateStates`) and the
  Gaussian random draws are explicit parameters: a tick consumes an oracle
  record holding the draws and the externally supplied transition function;
* the unbounded `while` loop of `exitMSM` is embedded with an explicit list
  of pending draws: exhausting the list without escaping returns `none`,
  so non-termination of the source loop shows as `none` for every list.
-/

namespace MSMRD

/-- Componentwise sum of two planar vectors, modelling numpy elementwise
addition of length-2 arrays (`particle.position + dr`). -/
def vadd (a b : ℚ × ℚ) : ℚ × ℚ := (a.1 + b.1, a.2 + b.2)

/-- Scalar rescaling of a planar vector, modelling
`newPosition*self.radius**2/(rNew**2)`. -/
def smul (c : ℚ) (a : ℚ × ℚ) : ℚ × ℚ := (c * a.1, c * a.2)

/-- Squared Euclidean norm of a planar vector.  The source compares
`np.linalg.norm(v)` with a nonnegative radius `r`; we embed that comparison
as `normSq v` versus `r^2`, which is equivalent for `0 ≤ r`. -/
def normSq (a : ℚ × ℚ) : ℚ := a.1 * a.1 + a.2 * a.2

/-- Cross product of two planar vectors; it vanishes exactly when the two
vectors are collinear with the origin. -/
def cross (a b : ℚ × ℚ) : ℚ := a.1 * b.2 - a.2 * b.1

/-- Squared Euclidean distance between two planar points, modelling the row
norms of `self.MSM.centers - R`.  `argmin` of the distances equals `argmin`
of the squared distances, the map `x ↦ x²` being monotone on `[0, ∞)`. -/
def distSq (a b : ℚ × ℚ) : ℚ := (a.1 - b.1) * (a.1 - b.1) + (a.2 - b.2) * (a.2 - b.2)

/-- Embedding of `propagateDiffusion` (lines 31-40): add the Gaussian draw
`dr` to the position; if the squared norm of the result reaches
`radius^2` (source: `rNew >= self.radius`), rescale the candidate by
`radius^2 / rNew^2` (inversion on the circle); otherwise keep it. -/
def propagateDiffusion (radius : ℚ) (pos dr : ℚ × ℚ) : ℚ × ℚ :=
  if radius ^ 2 ≤ normSq (vadd pos dr) then
    smul (radius ^ 2 / normSq (vadd pos dr)) (vadd pos dr)
  else vadd pos dr

/-- Embedding of the escape loop of `exitMSM` (lines 67-70):

`newPosition = zeros(2); while norm(newPosition) < bathRadius:
   dr = normal(...); newPosition = internalPosition + dr`.

The pending Gaussian draws are an explicit list; each iteration that passes
the loop guard consumes one draw and proposes `internal + dr`.  When the
guard fails the current candidate is returned; when the draws run out with
the guard still true the embedding returns `none` (the source would keep
looping).  `bRsq` is the squared bath radius. -/
def escapeLoop (bRsq : ℚ) (internal : ℚ × ℚ) : List (ℚ × ℚ) → ℚ × ℚ → Option (ℚ × ℚ)
  | [], cur => if normSq cur < bRsq then none else some cur
  | dr :: rest, cur =>
      if normSq cur < bRsq then escapeLoop bRsq internal rest (vadd internal dr)
      else some cur

/-- Index of the first minimal element of a list of rationals, modelling
`np.argmin`, which returns the first occurrence of the minimum. -/
def firstArgmin : List ℚ → ℕ
  | [] => 0
  | [_] => 0
  | x :: y :: ys =>
      if x ≤ (y :: ys).getD (firstArgmin (y :: ys)) 0 then 0
      else firstArgmin (y :: ys) + 1

/-- Embedding of the near-center branch of `enterMSM` (line 46):
`(np.linalg.norm(self.MSM.centers - R, axis=1)).argmin()`, the index of the
first center at minimal Euclidean distance from `R`. -/
def nearestCenter (centers : List (ℚ × ℚ)) (R : ℚ × ℚ) : ℕ :=
  firstArgmin (centers.map (fun c => distSq c R))

/-- Embedding of `above_threshold` (lines 24-29).  When `MSMactive` is
false it returns `True` unconditionally.  When active it indexes
`centers[state]`; an out-of-bounds index raises `IndexError` in numpy, which
the embedding reports as `none`.  The source compares
`norm(centers[state]) > threshold`; we compare squares (the source comment
assumes the threshold exceeds the MSM radius, hence is nonnegative). -/
def above_threshold (MSMactive : Bool) (centers : List (ℚ × ℚ)) (state : ℕ)
    (threshold : ℚ) : Option Bool :=
  if MSMactive then
    (centers[state]?).map (fun c => decide (threshold ^ 2 < normSq c))
  else some true

/-- Record of one call to `sample` (lines 87-91): `(time, x, y, s)` where the
sentinel `s = -1` marks a continuum sample (coordinates valid) and `s ≥ 0`
marks an MSM sample. -/
structure SampleRow where
  t : ℚ
  x : ℚ
  y : ℚ
  s : ℤ
deriving DecidableEq

/-- Continuum points of a trajectory that lie in the transition region
(lines 96-102): rows with sentinel `-1`, restricted to squared distance
below `MSMradius^2` (source: `distances < self.MSM.MSMradius`). -/
def transitionPoints (MSMradius : ℚ) (traj : List SampleRow) : List (ℚ × ℚ) :=
  ((traj.filter (fun r => r.s == -1)).map (fun r => (r.x, r.y))).filter
    (fun p => decide (normSq p < MSMradius ^ 2))

/-- Per-state count vector of `compute_stationary_distribution`
(lines 108-111), before normalization: for each state `i < states`, the
number of trajectory rows with sentinel `i` weighted by `lagtime`, plus the
number of transition-region continuum points that the external clustering
`alloc` (modelling `self.MSM.allocateStates`, a pure pointwise map of each
point to its nearest discrete state) assigns to `i`. -/
def countsVec (states : ℕ) (MSMradius lagtime : ℚ) (alloc : ℚ × ℚ → ℤ)
    (traj : List SampleRow) : List ℚ :=
  (List.range states).map (fun (i : ℕ) =>
    (traj.countP (fun r => r.s == (i : ℤ)) : ℚ) * lagtime +
    ((transitionPoints MSMradius traj).countP (fun p => alloc p == (i : ℤ)) : ℚ))

/-- Embedding of `compute_stationary_distribution` (lines 93-112): the count
vector normalized by its own sum (source: `counts /= float(counts.sum())`).
The source divides IEEE floats, so an all-zero count vector silently yields
a vector of `NaN`; in this rational model division by zero is total, so the
degenerate case is characterised by `countsVec ... |>.sum = 0`. -/
def compute_stationary_distribution (states : ℕ) (MSMradius lagtime : ℚ)
    (alloc : ℚ × ℚ → ℤ) (traj : List SampleRow) : List ℚ :=
  let counts := countsVec states MSMradius lagtime alloc traj
  counts.map (fun c => c / counts.sum)

/-- State of the external MSM collaborator: the current discrete state index
and the exit flag, both mutated only by the externally supplied
`propagate()`. -/
structure MSMState where
  state : ℤ
  exit : Bool
deriving DecidableEq

/-- Mutable runtime state of the integrator: the mode flag `MSMactive`, the
memo `lastState`, the external MSM state and the particle position. -/
structure IntState where
  MSMactive : Bool
  lastState : ℤ
  msm : MSMState
  pos : ℚ × ℚ
deriving DecidableEq

/-- Observable events of one integrator tick, used to state which
sub-operations `integrate` invokes. -/
inductive Ev where
  | propagateMSM
  | exitCall
  | bdStep
  | enterCall
deriving DecidableEq

/-- Oracle inputs consumed by one tick: the externally supplied MSM
transition function (`self.MSM.propagate()`), the Gaussian draw of the
Brownian step, the internal launch point of `exitMSM` (its polar sampling
is transcendental and is embedded separately over ℝ), the pending draws of
the escape loop, and the entry-state assignment of `enterMSM` (embedded
separately: `nearestCenter` and the angular discretizer over ℝ). -/
structure TickOracle where
  prop : MSMState → MSMState
  bdDraw : ℚ × ℚ
  exitLaunch : ℚ × ℚ
  escDraws : List (ℚ × ℚ)
  entrance : ℚ × ℚ → ℤ

/-- Effect of `exitMSM` (lines 54-74) on the integrator state: the assertion
`lastState >= NCenters` (`none` on violation, a fatal `AssertionError` in
the source), then the escape loop from the internal launch point; on escape
the particle takes the escaped position and `MSMactive` becomes false. -/
def exitMSMstep (NCenters : ℤ) (bathRadius : ℚ) (launch : ℚ × ℚ)
    (draws : List (ℚ × ℚ)) (s : IntState) : Option IntState :=
  if NCenters ≤ s.lastState then
    (escapeLoop (bathRadius ^ 2) launch draws (0, 0)).map
      (fun p => { s with pos := p, MSMactive := false })
  else none

/-- Effect of `enterMSM` (lines 42-52) on the integrator state: set the MSM
state to the computed entrance state, clear the exit flag, activate the MSM
regime. -/
def enterMSMstep (entrance : ℚ × ℚ → ℤ) (s : IntState) : IntState :=
  { s with msm := { state := entrance s.pos, exit := false }, MSMactive := true }

/-- Embedding of `integrate` (lines 75-85) with an event trace.  Active
regime: record the pre-propagation MSM state into `lastState`, apply the
external `propagate`, and call `exitMSM` exactly when the exit flag is set.
Inactive regime: one Brownian step, then call `enterMSM` exactly when the
squared radius of the new position is below `entryRadius^2` (source:
`norm(position) < entryRadius`). -/
def integrateTr (NCenters : ℤ) (radius entryRadius bathRadius : ℚ)
    (o : TickOracle) (s : IntState) : Option (IntState × List Ev) :=
  if s.MSMactive then
    let s1 : IntState := { s with lastState := s.msm.state }
    let s2 : IntState := { s1 with msm := o.prop s1.msm }
    if s2.msm.exit then
      (exitMSMstep NCenters bathRadius o.exitLaunch o.escDraws s2).map
        (fun t => (t, [Ev.propagateMSM, Ev.exitCall]))
    else some (s2, [Ev.propagateMSM])
  else
    let s1 : IntState := { s with pos := propagateDiffusion radius s.pos o.bdDraw }
    if normSq s1.pos < entryRadius ^ 2 then
      some (enterMSMstep o.entrance s1, [Ev.bdStep, Ev.enterCall])
    else some (s1, [Ev.bdStep])

/-- Concrete tick oracle used to exercise `integrateTr` on one input: the
external MSM transition keeps the state and reports no exit. -/
def sampleOracle : TickOracle where
  prop := fun m => { state := m.state, exit := false }
  bdDraw := (0, 0)
  exitLaunch := (0, 0)
  escDraws := []
  entrance := fun _ => 0

/-- Concrete integrator state used to exercise `integrateTr`: MSM regime
active in discrete state 5. -/
def sampleState : IntState where
  MSMactive := true
  lastState := 0
  msm := { state := 5, exit := false }
  pos := (9, 0)

/-- Width `2π / NangularPartitions` of one angular bath sector
(line 19 of the constructor). -/
noncomputable def angularIncrement (NangularPartitions : ℕ) : ℝ :=
  2 * Real.pi / NangularPartitions

/-- Launch angle drawn by the inner-ring branch of `exitMSM` (lines 58-59):
`thetaL = exitState * angularIncrement;
 theta = random()*(thetaL + angularIncrement) + thetaL`,
for a uniform draw `u ∈ [0,1)`. -/
noncomputable def exitThetaInner (NangularPartitions exitState : ℕ) (u : ℝ) : ℝ :=
  u * (exitState * angularIncrement NangularPartitions
        + angularIncrement NangularPartitions)
    + exitState * angularIncrement NangularPartitions

/-- Polar angle computed by the annulus branch of `enterMSM` (line 48):
`np.arctan2(R[0], R[1]) + np.pi`, where `arctan2(a, b)` is the argument of
the complex number `b + a·i`.  Here `x` and `y` are the particle
coordinates `R[0]` and `R[1]`. -/
noncomputable def thetaOf (x y : ℝ) : ℝ :=
  Complex.arg ((y : ℂ) + (x : ℂ) * Complex.I) + Real.pi

/-- Entry bath-state index assigned by the annulus branch of `enterMSM`
(line 49): `floor(theta / (2π) * NangularPartitions) + NCenters`. -/
noncomputable def entranceStateAngular (NCenters NangularPartitions : ℕ)
    (x y : ℝ) : ℤ :=
  ⌊thetaOf x y / (2 * Real.pi) * NangularPartitions⌋ + NCenters

/-! ## Helper lemmas -/

theorem normSq_nonneg (a : ℚ × ℚ) : 0 ≤ normSq a :=
  add_nonneg (mul_self_nonneg _) (mul_self_nonneg _)

theorem normSq_smul (c : ℚ) (a : ℚ × ℚ) : normSq (smul c a) = c ^ 2 * normSq a := by
  simp only [normSq, smul]
  ring

/-- If every candidate the escape loop can propose stays strictly inside the
bath radius, the loop never returns, whatever the number of pending draws. -/
theorem escapeLoop_none_of_inside (bRsq : ℚ) (internal : ℚ × ℚ) :
    ∀ (draws : List (ℚ × ℚ)), (∀ dr ∈ draws, normSq (vadd internal dr) < bRsq) →
      ∀ cur, normSq cur < bRsq → escapeLoop bRsq internal draws cur = none
  | [], _, cur, hcur => by simp [escapeLoop, hcur]
  | dr :: rest, hdr, cur, hcur => by
      rw [escapeLoop, if_pos hcur]
      exact escapeLoop_none_of_inside bRsq internal rest
        (fun d hd => hdr d (List.mem_cons_of_mem dr hd))
        (vadd internal dr) (hdr dr (List.mem_cons_self dr rest))

/-- When the escape loop returns a position, that position fails the loop
guard (its squared norm reaches the squared bath radius), and it is either
the initial candidate or a single step `internal + dr` for one of the
consumed draws. -/
theorem escapeLoop_some_spec (bRsq : ℚ) (internal : ℚ × ℚ) :
    ∀ (draws : List (ℚ × ℚ)) (cur res : ℚ × ℚ),
      escapeLoop bRsq internal draws cur = some res →
      bRsq ≤ normSq res ∧ (res = cur ∨ ∃ dr ∈ draws, res = vadd internal dr)
  | [], cur, res, h => by
      by_cases hcur : normSq cur < bRsq
      · rw [escapeLoop, if_pos hcur] at h
        exact absurd h (by simp)
      · rw [escapeLoop, if_neg hcur] at h
        obtain rfl : cur = res := by simpa using h
        exact ⟨le_of_not_lt hcur, Or.inl rfl⟩
  | dr :: rest, cur, res, h => by
      by_cases hcur : normSq cur < bRsq
      · rw [escapeLoop, if_pos hcur] at h
        obtain ⟨h1, h2⟩ := escapeLoop_some_spec bRsq internal rest (vadd internal dr) res h
        refine ⟨h1, Or.inr ?_⟩
        rcases h2 with h2 | ⟨d, hd, hres⟩
        · exact ⟨dr, List.mem_cons_self dr rest, h2⟩
        · exact ⟨d, List.mem_cons_of_mem dr hd, hres⟩
      · rw [escapeLoop, if_neg hcur] at h
        obtain rfl : cur = res := by simpa using h
        exact ⟨le_of_not_lt hcur, Or.inl rfl⟩

/-! ## Claim theorems -/

/-- C2.  The escape loop of `exitMSM` has no iteration ceiling: with bath
radius 3, internal launch point (3/2, 0) and every Gaussian increment equal
to zero, the loop guard can never fail, so for every finite iteration budget
`n` the embedded loop returns `none` — the source loops forever, it neither
terminates nor reports an "exit resampling failed to converge" error. -/
theorem exitMSM_escape_loop_no_ceiling (n : ℕ) :
    escapeLoop ((3 : ℚ) ^ 2) ((3 / 2 : ℚ), (0 : ℚ))
      (List.replicate n ((0 : ℚ), (0 : ℚ))) (0, 0) = none := by
  apply escapeLoop_none_of_inside
  · intro dr hdr
    rw [List.eq_of_mem_replicate hdr]
    norm_num [normSq, vadd]
  · norm_num [normSq]

/-- C3.  Degenerate input for `compute_stationary_distribution`: a
trajectory with a single continuum row at (5, 0), outside the transition
region (`MSMradius = 1`), and no discrete rows.  The pre-normalization count
vector is identically zero and its sum is zero, so the source statement
`counts /= float(counts.sum())` divides by zero (in IEEE floats this
silently produces a vector of NaN). -/
theorem compute_stationary_distribution_degenerate_zero_sum :
    countsVec 3 1 1 (fun _ => 0) [⟨0, 5, 0, -1⟩] = [0, 0, 0] ∧
    (countsVec 3 1 1 (fun _ => 0) [⟨0, 5, 0, -1⟩]).sum = 0 := by
  constructor <;>
    norm_num [countsVec, transitionPoints, List.countP, List.countP.go, List.range,
      List.range.loop, List.filter, normSq, cond_eq_if, beq_iff_eq]

/-- C5 counterexample.  The escape loop exits as soon as the candidate's
radius reaches `bathRadius`, not only when it strictly exceeds it: with
squared bath radius 4, launch point (1, 0) and draw (1, 0), the loop
returns the position (2, 0), whose squared norm equals 4 — the claimed
strict inequality `radius > bathRadius` fails. -/
theorem exitMSM_escape_strict_cex :
    escapeLoop ((2 : ℚ) ^ 2) ((1 : ℚ), (0 : ℚ)) [((1 : ℚ), (0 : ℚ))] (0, 0)
      = some (2, 0) ∧
    ¬ (2 : ℚ) ^ 2 < normSq ((2 : ℚ), (0 : ℚ)) := by
  constructor <;> norm_num [escapeLoop, normSq, vadd]

/-- C5 (amended).  For a positive bath radius, whenever the escape loop of
`exitMSM` returns a position, that position satisfies
`radius ≥ bathRadius` (equality included), and it is a single Brownian step
`internal + dr` from the internal launch point for one of the consumed
draws, with no boundary reflection applied. -/
theorem exitMSM_escape_amended (bRsq : ℚ) (internal : ℚ × ℚ)
    (draws : List (ℚ × ℚ)) (res : ℚ × ℚ) (hpos : 0 < bRsq)
    (h : escapeLoop bRsq internal draws (0, 0) = some res) :
    bRsq ≤ normSq res ∧ ∃ dr ∈ draws, res = vadd internal dr := by
  obtain ⟨h1, h2⟩ := escapeLoop_some_spec bRsq internal draws (0, 0) res h
  refine ⟨h1, ?_⟩
  rcases h2 with rfl | h2
  · exact absurd h1 (by norm_num [normSq, hpos])
  · exact h2

/-- C5 witness: the amended theorem applied to the concrete run with
squared bath radius 4, launch point (1, 0) and single draw (5, 0), which
escapes to (6, 0). -/
theorem exitMSM_escape_amended_witness :
    (2 : ℚ) ^ 2 ≤ normSq ((6 : ℚ), (0 : ℚ)) ∧
    ∃ dr ∈ [((5 : ℚ), (0 : ℚ))], ((6 : ℚ), (0 : ℚ)) = vadd (1, 0) dr :=
  exitMSM_escape_amended ((2 : ℚ) ^ 2) (1, 0) [(5, 0)] (6, 0) (by norm_num)
    (by norm_num [escapeLoop, normSq, vadd])

/-- C6.  Boundary inversion of `propagateDiffusion`: whenever the Gaussian
displacement places the candidate position `pos + dr` at radius at least
`radius`, the stored position is the candidate rescaled by
`radius² / rNew²`, its radius is at most `radius`, and it is collinear with
the origin and the pre-inversion candidate; when the candidate stays
strictly inside, it is stored unchanged.  Radii are compared via squared
norms. -/
theorem propagateDiffusion_inversion (radius : ℚ) (pos dr : ℚ × ℚ)
    (hr : 0 < radius) :
    (radius ^ 2 ≤ normSq (vadd pos dr) →
      propagateDiffusion radius pos dr
        = smul (radius ^ 2 / normSq (vadd pos dr)) (vadd pos dr) ∧
      normSq (propagateDiffusion radius pos dr) ≤ radius ^ 2 ∧
      cross (propagateDiffusion radius pos dr) (vadd pos dr) = 0) ∧
    (normSq (vadd pos dr) < radius ^ 2 →
      propagateDiffusion radius pos dr = vadd pos dr) := by
  constructor
  · intro h
    have hS : 0 < normSq (vadd pos dr) := lt_of_lt_of_le (by positivity) h
    have heq : propagateDiffusion radius pos dr
        = smul (radius ^ 2 / normSq (vadd pos dr)) (vadd pos dr) := by
      rw [propagateDiffusion, if_pos h]
    refine ⟨heq, ?_, ?_⟩
    · rw [heq, normSq_smul]
      calc (radius ^ 2 / normSq (vadd pos dr)) ^ 2 * normSq (vadd pos dr)
          = radius ^ 2 * (radius ^ 2 / normSq (vadd pos dr)) := by
            field_simp
            ring
        _ ≤ radius ^ 2 * 1 :=
            mul_le_mul_of_nonneg_left ((div_le_one hS).2 h) (by positivity)
        _ = radius ^ 2 := mul_one _
    · rw [heq]
      simp only [cross, smul]
      ring
  · intro h
    rw [propagateDiffusion, if_neg (not_le.2 h)]

/-- C6 witness: the inversion theorem applied at radius 1 with candidate
position (3, 0), which is rescaled to (1/3, 0). -/
theorem propagateDiffusion_inversion_witness :
    propagateDiffusion 1 ((3 : ℚ), (0 : ℚ)) (0, 0)
      = smul ((1 : ℚ) ^ 2 / normSq (vadd (3, 0) (0, 0))) (vadd (3, 0) (0, 0)) ∧
    normSq (propagateDiffusion 1 ((3 : ℚ), (0 : ℚ)) (0, 0)) ≤ (1 : ℚ) ^ 2 ∧
    cross (propagateDiffusion 1 ((3 : ℚ), (0 : ℚ)) (0, 0)) (vadd (3, 0) (0, 0)) = 0 :=
  (propagateDiffusion_inversion 1 (3, 0) (0, 0) (by norm_num)).1
    (by norm_num [normSq, vadd])

/-- C10.  Behaviour of `above_threshold`: when `MSMactive` is false it
returns `True` regardless of position and threshold; when active it returns
whether the norm of `centers[state]` exceeds the threshold, so the lookup
succeeds exactly when `state < len(centers)` (the near-center states, the
source keeping one center per near-center state), and is an out-of-bounds
access — an `IndexError`, embedded as `none` — whenever the current state
is at least `len(centers)`, in particular for every angular bath state. -/
theorem above_threshold_spec (centers : List (ℚ × ℚ)) (state : ℕ)
    (threshold : ℚ) :
    above_threshold false centers state threshold = some true ∧
    (∀ h : state < centers.length,
      above_threshold true centers state threshold
        = some (decide (threshold ^ 2 < normSq (centers.get ⟨state, h⟩)))) ∧
    (centers.length ≤ state →
      above_threshold true centers state threshold = none) := by
  refine ⟨by simp [above_threshold], fun h => ?_, fun h => ?_⟩
  · simp [above_threshold, List.getElem?_eq_getElem h]
  · simp [above_threshold, List.getElem?_eq_none h]

/-- C10 witness: the theorem applied to a single center (3, 0) with
threshold 1 — inactive mode returns true, the in-bounds lookup at state 0
returns true, and the out-of-bounds lookup at state 1 yields `none`. -/
theorem above_threshold_spec_witness :
    above_threshold false [((3 : ℚ), (0 : ℚ))] 0 1 = some true ∧
    above_threshold true [((3 : ℚ), (0 : ℚ))] 0 1
      = some (decide ((1 : ℚ) ^ 2 < normSq ((([((3 : ℚ), (0 : ℚ))]).get ⟨0, by norm_num⟩)))) ∧
    above_threshold true [((3 : ℚ), (0 : ℚ))] 1 1 = none :=
  ⟨(above_threshold_spec [(3, 0)] 0 1).1,
   (above_threshold_spec [(3, 0)] 0 1).2.1 (by norm_num),
   (above_threshold_spec [(3, 0)] 1 1).2.2 (by norm_num)⟩

theorem firstArgmin_lt_length : ∀ (l : List ℚ), l ≠ [] → firstArgmin l < l.length
  | [], h => absurd rfl h
  | [_], _ => by simp [firstArgmin]
  | x :: y :: ys, _ => by
      rw [firstArgmin]
      split
      · simp
      · have := firstArgmin_lt_length (y :: ys) (by simp)
        simpa [List.length_cons] using Nat.succ_lt_succ this

theorem firstArgmin_le : ∀ (l : List ℚ) (j : ℕ), j < l.length →
    l.getD (firstArgmin l) 0 ≤ l.getD j 0
  | [], j, h => by simp at h
  | [x], j, h => by
      obtain rfl : j = 0 := by simpa using Nat.lt_one_iff.1 h
      simp [firstArgmin]
  | x :: y :: ys, j, h => by
      by_cases hc : x ≤ (y :: ys).getD (firstArgmin (y :: ys)) 0
      · rw [firstArgmin, if_pos hc, List.getD_cons_zero]
        cases j with
        | zero => simp
        | succ j =>
            rw [List.getD_cons_succ]
            exact le_trans hc
              (firstArgmin_le (y :: ys) j (by simpa [Nat.succ_lt_succ_iff] using h))
      · rw [firstArgmin, if_neg hc, List.getD_cons_succ]
        cases j with
        | zero =>
            rw [List.getD_cons_zero]
            exact le_of_lt (lt_of_not_le hc)
        | succ j =>
            rw [List.getD_cons_succ]
            exact firstArgmin_le (y :: ys) j (by simpa [Nat.succ_lt_succ_iff] using h)

theorem firstArgmin_first : ∀ (l : List ℚ) (j : ℕ), j < firstArgmin l →
    l.getD (firstArgmin l) 0 < l.getD j 0
  | [], j, h => by simp [firstArgmin] at h
  | [_], j, h => by simp [firstArgmin] at h
  | x :: y :: ys, j, h => by
      by_cases hc : x ≤ (y :: ys).getD (firstArgmin (y :: ys)) 0
      · rw [firstArgmin, if_pos hc] at h
        exact absurd h (Nat.not_lt_zero j)
      · rw [firstArgmin, if_neg hc] at h ⊢
        rw [List.getD_cons_succ]
        cases j with
        | zero =>
            rw [List.getD_cons_zero]
            exact lt_of_not_le hc
        | succ j =>
            rw [List.getD_cons_succ]
            exact firstArgmin_first (y :: ys) j (Nat.succ_lt_succ_iff.1 h)

theorem getD_map_distSq (R : ℚ × ℚ) (l : List (ℚ × ℚ)) (j : ℕ)
    (h : j < l.length) :
    (l.map (fun c => distSq c R)).getD j 0 = distSq (l.getD j (0, 0)) R := by
  rw [List.getD_eq_getElem?_getD, List.getD_eq_getElem?_getD, List.getElem?_map,
    List.getElem?_eq_getElem h]
  simp

/-- C8.  Near-center entry assignment of `enterMSM`: the chosen index is a
valid index into `centers`, the chosen center minimizes the Euclidean
distance to the entry position `R` (stated via squared distances, `argmin`
being invariant under the monotone square), and every center with a
strictly smaller index is strictly farther — the first minimum wins ties,
as `np.argmin` does. -/
theorem enterMSM_nearest_center (centers : List (ℚ × ℚ)) (R : ℚ × ℚ)
    (h : centers ≠ []) :
    nearestCenter centers R < centers.length ∧
    (∀ j, j < centers.length →
      distSq (centers.getD (nearestCenter centers R) (0, 0)) R
        ≤ distSq (centers.getD j (0, 0)) R) ∧
    (∀ j, j < nearestCenter centers R →
      distSq (centers.getD (nearestCenter centers R) (0, 0)) R
        < distSq (centers.getD j (0, 0)) R) := by
  have hmap : (centers.map (fun c => distSq c R)).length = centers.length :=
    List.length_map _ _
  have hne : centers.map (fun c => distSq c R) ≠ [] := by
    simpa using h
  have hfold : firstArgmin (centers.map (fun c => distSq c R))
      = nearestCenter centers R := rfl
  have hlt : nearestCenter centers R < centers.length := by
    have := firstArgmin_lt_length (centers.map (fun c => distSq c R)) hne
    rwa [hmap, hfold] at this
  refine ⟨hlt, fun j hj => ?_, fun j hj => ?_⟩
  · have := firstArgmin_le (centers.map (fun c => distSq c R)) j (by rwa [hmap])
    rwa [hfold, getD_map_distSq R centers _ hlt,
      getD_map_distSq R centers j hj] at this
  · have := firstArgmin_first (centers.map (fun c => distSq c R)) j
      (by rwa [hfold])
    rwa [hfold, getD_map_distSq R centers _ hlt,
      getD_map_distSq R centers j (lt_trans hj hlt)] at this

/-- C8 witness: the theorem applied to centers (0,0) and (2,0) with entry
position (3,0); the chosen index is 1, the center at squared distance 1. -/
theorem enterMSM_nearest_center_witness :
    nearestCenter [((0 : ℚ), (0 : ℚ)), ((2 : ℚ), (0 : ℚ))] (3, 0) = 1 ∧
    (nearestCenter [((0 : ℚ), (0 : ℚ)), ((2 : ℚ), (0 : ℚ))] (3, 0)
        < ([((0 : ℚ), (0 : ℚ)), ((2 : ℚ), (0 : ℚ))]).length ∧
      (∀ j, j < ([((0 : ℚ), (0 : ℚ)), ((2 : ℚ), (0 : ℚ))]).length →
        distSq (([((0 : ℚ), (0 : ℚ)), ((2 : ℚ), (0 : ℚ))]).getD
            (nearestCenter [((0 : ℚ), (0 : ℚ)), ((2 : ℚ), (0 : ℚ))] (3, 0)) (0, 0)) (3, 0)
          ≤ distSq (([((0 : ℚ), (0 : ℚ)), ((2 : ℚ), (0 : ℚ))]).getD j (0, 0)) (3, 0)) ∧
      (∀ j, j < nearestCenter [((0 : ℚ), (0 : ℚ)), ((2 : ℚ), (0 : ℚ))] (3, 0) →
        distSq (([((0 : ℚ), (0 : ℚ)), ((2 : ℚ), (0 : ℚ))]).getD
            (nearestCenter [((0 : ℚ), (0 : ℚ)), ((2 : ℚ), (0 : ℚ))] (3, 0)) (0, 0)) (3, 0)
          < distSq (([((0 : ℚ), (0 : ℚ)), ((2 : ℚ), (0 : ℚ))]).getD j (0, 0)) (3, 0))) :=
  ⟨by norm_num [nearestCenter, firstArgmin, distSq],
   enterMSM_nearest_center [(0, 0), (2, 0)] (3, 0) (by simp)⟩

theorem sum_map_div (l : List ℚ) (S : ℚ) :
    (l.map (fun c => c / S)).sum = l.sum / S := by
  induction l with
  | nil => simp
  | cons x xs ih => simp [ih, add_div]

theorem sum_pos_of_nonneg_of_exists_ne (l : List ℚ)
    (h0 : ∀ x ∈ l, 0 ≤ x) (hx : ∃ x ∈ l, x ≠ 0) : 0 < l.sum := by
  induction l with
  | nil => simp at hx
  | cons a as ih =>
      rw [List.sum_cons]
      have ha : 0 ≤ a := h0 a (List.mem_cons_self a as)
      have hsum : 0 ≤ as.sum :=
        List.sum_nonneg (fun x hxm => h0 x (List.mem_cons_of_mem a hxm))
      rcases hx with ⟨x, hxm, hxne⟩
      rcases List.mem_cons.1 hxm with rfl | hxm
      · have : 0 < x := lt_of_le_of_ne ha (Ne.symm hxne)
        linarith
      · have : 0 < as.sum :=
          ih (fun y hy => h0 y (List.mem_cons_of_mem a hy)) ⟨x, hxm, hxne⟩
        linarith

theorem countsVec_length (states : ℕ) (MSMradius lagtime : ℚ)
    (alloc : ℚ × ℚ → ℤ) (traj : List SampleRow) :
    (countsVec states MSMradius lagtime alloc traj).length = states := by
  rw [countsVec, List.length_map, List.length_range]

theorem countsVec_nonneg (states : ℕ) (MSMradius lagtime : ℚ)
    (alloc : ℚ × ℚ → ℤ) (traj : List SampleRow) (hlag : 0 ≤ lagtime) :
    ∀ c ∈ countsVec states MSMradius lagtime alloc traj, 0 ≤ c := by
  intro c hc
  simp only [countsVec, List.mem_map] at hc
  obtain ⟨i, _, rfl⟩ := hc
  have h1 : (0 : ℚ) ≤ (traj.countP (fun r => r.s == (i : ℤ)) : ℚ) * lagtime :=
    mul_nonneg (Nat.cast_nonneg _) hlag
  have h2 : (0 : ℚ) ≤
      ((transitionPoints MSMradius traj).countP (fun p => alloc p == (i : ℤ)) : ℚ) :=
    Nat.cast_nonneg _
  linarith

theorem countsVec_perm (states : ℕ) (MSMradius lagtime : ℚ)
    (alloc : ℚ × ℚ → ℤ) (traj traj' : List SampleRow)
    (hperm : traj.Perm traj') :
    countsVec states MSMradius lagtime alloc traj
      = countsVec states MSMradius lagtime alloc traj' := by
  have htp : (transitionPoints MSMradius traj).Perm
      (transitionPoints MSMradius traj') :=
    ((hperm.filter _).map _).filter _
  unfold countsVec
  refine List.map_congr_left (fun i _ => ?_)
  rw [hperm.countP_eq, htp.countP_eq]

/-- C9.  For a trajectory whose pre-normalization count vector is not
identically zero (and a nonnegative lag time), the vector returned by
`compute_stationary_distribution` has length `MSM.states`, sums to 1, and
is unchanged under any permutation of the trajectory's rows.  The embedded
routine is a pure function of the trajectory, mutating nothing. -/
theorem compute_stationary_distribution_props (states : ℕ)
    (MSMradius lagtime : ℚ) (alloc : ℚ × ℚ → ℤ) (traj traj' : List SampleRow)
    (hlag : 0 ≤ lagtime) (hperm : traj.Perm traj')
    (hnz : countsVec states MSMradius lagtime alloc traj
            ≠ List.replicate states 0) :
    (compute_stationary_distribution states MSMradius lagtime alloc traj).length
      = states ∧
    (compute_stationary_distribution states MSMradius lagtime alloc traj).sum = 1 ∧
    compute_stationary_distribution states MSMradius lagtime alloc traj
      = compute_stationary_distribution states MSMradius lagtime alloc traj' := by
  have hpos : 0 < (countsVec states MSMradius lagtime alloc traj).sum := by
    apply sum_pos_of_nonneg_of_exists_ne _
      (countsVec_nonneg states MSMradius lagtime alloc traj hlag)
    by_contra hall
    push_neg at hall
    exact hnz (by
      have := List.eq_replicate_of_mem (l := countsVec states MSMradius lagtime alloc traj)
        (a := (0 : ℚ)) (fun b hb => hall b hb)
      rwa [countsVec_length] at this)
  refine ⟨?_, ?_, ?_⟩
  · rw [compute_stationary_distribution, List.length_map, countsVec_length]
  · rw [compute_stationary_distribution, sum_map_div, div_self (ne_of_gt hpos)]
  · rw [compute_stationary_distribution, compute_stationary_distribution,
      countsVec_perm states MSMradius lagtime alloc traj traj' hperm]

/-- C9 witness: the theorem applied to the one-row discrete trajectory
`[(0, 0, 0, 0)]` with two states, `MSMradius = 1`, `lagtime = 1` and a
clustering that sends every point to state 0 — the count vector is [1, 0],
so the stationary distribution is defined, of length 2, and sums to 1. -/
theorem compute_stationary_distribution_props_witness :
    (compute_stationary_distribution 2 1 1 (fun _ => 0) [⟨0, 0, 0, 0⟩]).length = 2 ∧
    (compute_stationary_distribution 2 1 1 (fun _ => 0) [⟨0, 0, 0, 0⟩]).sum = 1 ∧
    compute_stationary_distribution 2 1 1 (fun _ => 0) [⟨0, 0, 0, 0⟩]
      = compute_stationary_distribution 2 1 1 (fun _ => 0) [⟨0, 0, 0, 0⟩] :=
  compute_stationary_distribution_props 2 1 1 (fun _ => 0) [⟨0, 0, 0, 0⟩]
    [⟨0, 0, 0, 0⟩] (by norm_num) (List.Perm.refl _)
    (by norm_num [countsVec, transitionPoints, List.countP, List.countP.go,
      List.range, List.range.loop, List.filter, normSq, cond_eq_if, beq_iff_eq,
      List.replicate])

/-- C7.  One tick of `integrate` runs exactly one regime, witnessed by the
event trace: in the active regime the trace is `propagateMSM` (followed by
`exitCall` exactly when the post-propagation exit flag is set), the
pre-propagation MSM state is recorded into `lastState` before the external
transition is applied, and the MSM advances by exactly one application of
`prop`; in the inactive regime the trace is `bdStep` (followed by
`enterCall` exactly when the new squared radius is below `entryRadius²`),
with the position advanced by one Brownian step. -/
theorem integrate_dispatch (NCenters : ℤ) (radius entryRadius bathRadius : ℚ)
    (o : TickOracle) (s : IntState) :
    (s.MSMactive = true →
      ((o.prop s.msm).exit = true →
        integrateTr NCenters radius entryRadius bathRadius o s
          = (exitMSMstep NCenters bathRadius o.exitLaunch o.escDraws
              { s with lastState := s.msm.state, msm := o.prop s.msm }).map
              (fun t => (t, [Ev.propagateMSM, Ev.exitCall]))) ∧
      ((o.prop s.msm).exit = false →
        integrateTr NCenters radius entryRadius bathRadius o s
          = some ({ s with lastState := s.msm.state, msm := o.prop s.msm },
              [Ev.propagateMSM]))) ∧
    (s.MSMactive = false →
      (normSq (propagateDiffusion radius s.pos o.bdDraw) < entryRadius ^ 2 →
        integrateTr NCenters radius entryRadius bathRadius o s
          = some (enterMSMstep o.entrance
                { s with pos := propagateDiffusion radius s.pos o.bdDraw },
              [Ev.bdStep, Ev.enterCall])) ∧
      (¬ normSq (propagateDiffusion radius s.pos o.bdDraw) < entryRadius ^ 2 →
        integrateTr NCenters radius entryRadius bathRadius o s
          = some ({ s with pos := propagateDiffusion radius s.pos o.bdDraw },
              [Ev.bdStep]))) := by
  refine ⟨fun ha => ⟨fun he => ?_, fun he => ?_⟩,
          fun ha => ⟨fun he => ?_, fun he => ?_⟩⟩ <;>
    simp [integrateTr, ha, he]

/-- C7 witness: one active tick on the concrete state `sampleState` with
the concrete oracle `sampleOracle`, whose external transition reports no
exit — the tick records `lastState = 5`, applies the transition once, and
emits the single event `propagateMSM`. -/
theorem integrate_dispatch_witness :
    integrateTr 4 10 2 3 sampleOracle sampleState
      = some ({ sampleState with
                  lastState := sampleState.msm.state,
                  msm := sampleOracle.prop sampleState.msm },
              [Ev.propagateMSM]) :=
  ((integrate_dispatch 4 10 2 3 sampleOracle sampleState).1 rfl).2 rfl

/-- C1.  The inner-ring branch of `exitMSM` does not sample the launch
angle inside the originating sector: with `NangularPartitions = 4` (sector
width π/2), exit state 1 and uniform draw u = 3/4 ∈ [0, 1), the source
formula `theta = u*(thetaL + angularIncrement) + thetaL` yields 5π/4, which
lies outside the sector [π/2, π) of state 1.  (The outer-ring branch uses
`u*angularIncrement + thetaL`, which stays inside the sector.) -/
theorem exitMSM_inner_angle_outside_sector :
    ((3 : ℝ) / 4) ∈ Set.Ico (0 : ℝ) 1 ∧
    exitThetaInner 4 1 (3 / 4) = 5 * Real.pi / 4 ∧
    exitThetaInner 4 1 (3 / 4) ∉
      Set.Ico ((1 : ℕ) * angularIncrement 4) (((1 : ℕ) + 1) * angularIncrement 4) := by
  have hpi := Real.pi_pos
  have ha : angularIncrement 4 = Real.pi / 2 := by
    unfold angularIncrement
    norm_num
    ring
  have hval : exitThetaInner 4 1 (3 / 4) = 5 * Real.pi / 4 := by
    unfold exitThetaInner
    rw [ha]
    push_cast
    ring
  refine ⟨by norm_num, hval, ?_⟩
  rw [hval, ha, Set.mem_Ico]
  push_cast
  intro h
  nlinarith [h.2]

/-- C4 counterexample.  The angle convention `arctan2(x, y) + π` of
`enterMSM` attains 2π exactly: at position (0, -1) (so `arctan2` is applied
to the complex point -1, whose argument is π), the computed angle is 2π,
and with `NCenters = 4` and `NangularPartitions = 4` the assigned entry
index is `4 + floor(2π/(2π)·4) = 8`, outside the claimed range [4, 8). -/
theorem enterMSM_angle_boundary_cex :
    thetaOf 0 (-1) = 2 * Real.pi ∧
    entranceStateAngular 4 4 0 (-1) = 8 ∧
    entranceStateAngular 4 4 0 (-1) ∉ Set.Ico ((4 : ℤ)) ((4 : ℤ) + 4) := by
  have harg : thetaOf 0 (-1) = 2 * Real.pi := by
    unfold thetaOf
    rw [show (((-1 : ℝ)) : ℂ) + ((0 : ℝ) : ℂ) * Complex.I = -1 by push_cast; ring,
      Complex.arg_neg_one]
    ring
  have hfloor : entranceStateAngular 4 4 0 (-1) = 8 := by
    unfold entranceStateAngular
    rw [harg]
    have h2pi : (2 : ℝ) * Real.pi ≠ 0 := ne_of_gt Real.two_pi_pos
    rw [div_self h2pi, one_mul]
    rw [show ((4 : ℕ) : ℝ) = ((4 : ℤ) : ℝ) by norm_num, Int.floor_intCast]
    norm_num
  exact ⟨harg, hfloor, by rw [hfloor]; simp⟩

/-- C4 (amended).  Coverage of the angular entry discretizer of `enterMSM`:
the computed polar angle lies in the half-open interval (0, 2π] (not
[0, 2π): the convention `arctan2 + π` maps arguments in (-π, π] to
(0, 2π], attaining 2π at positions with x = 0, y < 0).  For every position
whose computed angle is strictly below 2π, the assigned index lies in
[NCenters, NCenters + NangularPartitions), and every index in that range is
attained by some such position — no gaps, and the only index outside the
range arises at the boundary angle 2π. -/
theorem enterMSM_angular_coverage_amended (NCenters NangularPartitions : ℕ)
    (hN : 0 < NangularPartitions) :
    (∀ x y : ℝ, thetaOf x y ∈ Set.Ioc 0 (2 * Real.pi)) ∧
    (∀ x y : ℝ, thetaOf x y < 2 * Real.pi →
      entranceStateAngular NCenters NangularPartitions x y ∈
        Set.Ico (NCenters : ℤ) ((NCenters : ℤ) + NangularPartitions)) ∧
    (∀ k : ℕ, k < NangularPartitions → ∃ x y : ℝ,
      thetaOf x y < 2 * Real.pi ∧
      entranceStateAngular NCenters NangularPartitions x y
        = (NCenters : ℤ) + k) := by
  have hpi := Real.pi_pos
  have h2pi : (0 : ℝ) < 2 * Real.pi := Real.two_pi_pos
  have hNR : (0 : ℝ) < NangularPartitions := by exact_mod_cast hN
  have h1 : ∀ x y : ℝ, thetaOf x y ∈ Set.Ioc 0 (2 * Real.pi) := by
    intro x y
    unfold thetaOf
    constructor
    · have := Complex.neg_pi_lt_arg ((y : ℂ) + (x : ℂ) * Complex.I)
      linarith
    · have := Complex.arg_le_pi ((y : ℂ) + (x : ℂ) * Complex.I)
      linarith
  refine ⟨h1, fun x y hlt => ?_, fun k hk => ?_⟩
  · have h0 : 0 < thetaOf x y := (h1 x y).1
    unfold entranceStateAngular
    have hlo : (0 : ℤ) ≤ ⌊thetaOf x y / (2 * Real.pi) * NangularPartitions⌋ := by
      apply Int.le_floor.2
      push_cast
      positivity
    have hhi : ⌊thetaOf x y / (2 * Real.pi) * NangularPartitions⌋
        < (NangularPartitions : ℤ) := by
      apply Int.floor_lt.2
      push_cast
      calc thetaOf x y / (2 * Real.pi) * NangularPartitions
          < 1 * NangularPartitions :=
            mul_lt_mul_of_pos_right ((div_lt_one h2pi).2 hlt) hNR
        _ = NangularPartitions := one_mul _
    rw [Set.mem_Ico]
    omega
  · have hkR : (k : ℝ) < NangularPartitions := by exact_mod_cast hk
    have hNe : (NangularPartitions : ℝ) ≠ 0 := ne_of_gt hNR
    have hθpos : 0 < (2 * (k : ℝ) + 1) * Real.pi / NangularPartitions := by
      positivity
    have hθlt : (2 * (k : ℝ) + 1) * Real.pi / NangularPartitions
        < 2 * Real.pi := by
      rw [div_lt_iff₀ hNR]
      have hk1 : (k : ℝ) + 1 ≤ NangularPartitions := by exact_mod_cast hk
      have hlt1 : 2 * (k : ℝ) + 1 < 2 * (NangularPartitions : ℝ) := by linarith
      calc (2 * (k : ℝ) + 1) * Real.pi
          < 2 * (NangularPartitions : ℝ) * Real.pi :=
            mul_lt_mul_of_pos_right hlt1 hpi
        _ = 2 * Real.pi * NangularPartitions := by ring
    have hang : thetaOf
        (Real.sin ((2 * (k : ℝ) + 1) * Real.pi / NangularPartitions - Real.pi))
        (Real.cos ((2 * (k : ℝ) + 1) * Real.pi / NangularPartitions - Real.pi))
        = (2 * (k : ℝ) + 1) * Real.pi / NangularPartitions := by
      unfold thetaOf
      rw [Complex.ofReal_cos, Complex.ofReal_sin,
        Complex.arg_cos_add_sin_mul_I ⟨by linarith, by linarith⟩]
      ring
    refine ⟨Real.sin ((2 * (k : ℝ) + 1) * Real.pi / NangularPartitions - Real.pi),
      Real.cos ((2 * (k : ℝ) + 1) * Real.pi / NangularPartitions - Real.pi),
      ?_, ?_⟩
    · rw [hang]
      exact hθlt
    · unfold entranceStateAngular
      rw [hang]
      have hv : (2 * (k : ℝ) + 1) * Real.pi / NangularPartitions / (2 * Real.pi)
          * NangularPartitions = (k : ℝ) + 1 / 2 := by
        field_simp
        ring
      rw [hv, show ⌊(k : ℝ) + 1 / 2⌋ = (k : ℤ) from
        Int.floor_eq_iff.2 ⟨by push_cast; linarith, by push_cast; linarith⟩]
      omega

/-- C4 witness: the amended coverage theorem at `NCenters = 4`,
`NangularPartitions = 4`. -/
theorem enterMSM_angular_coverage_amended_witness :
    (∀ x y : ℝ, thetaOf x y ∈ Set.Ioc 0 (2 * Real.pi)) ∧
    (∀ x y : ℝ, thetaOf x y < 2 * Real.pi →
      entranceStateAngular 4 4 x y ∈
        Set.Ico ((4 : ℕ) : ℤ) (((4 : ℕ) : ℤ) + (4 : ℕ))) ∧
    (∀ k : ℕ, k < 4 → ∃ x y : ℝ,
      thetaOf x y < 2 * Real.pi ∧
      entranceStateAngular 4 4 x y = ((4 : ℕ) : ℤ) + k) :=
  enterMSM_angular_coverage_amended 4 4 (by norm_num)

end MSMRD
